import Mathlib

/-!
# Verification of the benchy core pipeline

Shallow embedding of the benchy repository's core (percentile engine,
result aggregation, CSV routing, worker-pool lifecycle) and proofs of the
specification's claims about it.

Go `float64` values are modelled by `EFloat`: exact rationals extended with
`NaN` and the two infinities.  All float arithmetic reachable in the claims
is exact in `float64` as well (small integer-valued samples, percentiles
50/95/99 on 3 samples reproduce exactly in IEEE double, as the repository's
own tests assert), so the rational model is faithful on the claims' inputs.
Array accesses translate to `Option`: `none` models a Go runtime panic
(index out of range, integer division by zero).
-/

/-- Extended float: Go `float64` modelled as an exact rational plus
`NaN`, `+Inf`, `-Inf`. -/
inductive EFloat where
  | nan : EFloat
  | posInf : EFloat
  | negInf : EFloat
  | fin : ℚ → EFloat
deriving DecidableEq, Repr

/-- Go `math.Min`: NaN if either argument is NaN, otherwise the smaller,
with `-Inf` absorbing and `+Inf` neutral. -/
def goMin : EFloat → EFloat → EFloat
  | .nan, _ => .nan
  | _, .nan => .nan
  | .negInf, _ => .negInf
  | _, .negInf => .negInf
  | .posInf, y => y
  | x, .posInf => x
  | .fin a, .fin b => .fin (min a b)

/-- Go `math.Max`: NaN if either argument is NaN, otherwise the larger,
with `+Inf` absorbing and `-Inf` neutral. -/
def goMax : EFloat → EFloat → EFloat
  | .nan, _ => .nan
  | _, .nan => .nan
  | .posInf, _ => .posInf
  | _, .posInf => .posInf
  | .negInf, y => y
  | x, .negInf => x
  | .fin a, .fin b => .fin (max a b)

/-- Go float division of a finite value by a nonnegative integer count:
`0/0 = NaN`, `x/0 = ±Inf` by sign, otherwise exact. -/
def goDivNat (x : ℚ) (n : ℕ) : EFloat :=
  if n = 0 then
    if x = 0 then .nan else if 0 < x then .posInf else .negInf
  else .fin (x / (n : ℚ))

/-- Go conversion `int64(x)` on a finite float: truncation toward zero
(overflow ignored; all reachable values are tiny). -/
def goInt64 (q : ℚ) : ℤ :=
  if 0 ≤ q then ⌊q⌋ else -⌊-q⌋

/-- IEEE-style comparison on `EFloat` (Go `<=` on float64): any comparison
involving NaN is false. -/
def efLe : EFloat → EFloat → Bool
  | .nan, _ => false
  | _, .nan => false
  | .negInf, _ => true
  | _, .negInf => false
  | _, .posInf => true
  | .posInf, _ => false
  | .fin a, .fin b => decide (a ≤ b)

/-! ## Percentile engine (`percentile` in `collect_result.go`) -/

def maxPercentile : ℚ := 100
def minPercentile : ℚ := 0
def minPercentileDataLen : ℚ := 2

/-- `percentile` from `collect_result.go`, line for line.  `none` models the
Go panic on an out-of-range index: the source computes
`rank := (p/100)*(n-1) + 1`, `ri := float64(int64(rank))`, `rf := rank - ri`,
`i := int(ri) - 1` and then reads `data[i]` and `data[i+1]`. -/
def percentile (data : List ℚ) (p : ℚ) : Option EFloat :=
  if p < minPercentile then some .nan
  else if p > maxPercentile then some .nan
  else
    let n : ℚ := data.length
    if n < minPercentileDataLen then some .nan
    else
      let rank : ℚ := (p / 100) * (n - 1) + 1
      let ri : ℤ := goInt64 rank
      let rf : ℚ := rank - (ri : ℚ)
      let i : ℤ := ri - 1
      if i < 0 then none
      else
        match data[i.toNat]?, data[i.toNat + 1]? with
        | some a, some b => some (.fin (a + rf * (b - a)))
        | _, _ => none

/-- The percentile policy as the specification words it (§4.4): NaN for
`p < 0` or `p > 100` or fewer than 2 samples; otherwise
`rank = (p/100)·(n−1) + 1`, `i = floor(rank)`, `f = rank − i`, and the
result is `samples[i−1] + f·(samples[i] − samples[i−1])` with 0-indexed
access (`none` when an access falls outside the array). -/
def specPercentile (samples : List ℚ) (p : ℚ) : Option EFloat :=
  if p < 0 ∨ p > 100 then some .nan
  else if samples.length < 2 then some .nan
  else
    let n : ℚ := samples.length
    let rank : ℚ := (p / 100) * (n - 1) + 1
    let i : ℤ := ⌊rank⌋
    let f : ℚ := rank - (i : ℚ)
    if i - 1 < 0 then none
    else
      match samples[(i - 1).toNat]?, samples[(i - 1).toNat + 1]? with
      | some a, some b => some (.fin (a + f * (b - a)))
      | _, _ => none

/-! ## Result aggregation (`CollectResult` in `collect_result.go`) -/

/-- `QueryResult` from `entity.go`; the `error` interface value is modelled
as `Option String`. -/
structure QueryResult where
  Duration : ℚ
  Host : String
  Error : Option String
deriving DecidableEq, Repr

/-- `Stats` from `entity.go`. -/
structure Stats where
  ExecCount : ℕ
  FailedCount : ℕ
  Sum : ℚ
  Min : EFloat
  Max : EFloat
  Mean : EFloat
  Median : EFloat
  Percentile95th : EFloat
  Percentile99th : EFloat
deriving DecidableEq, Repr

/-- The running accumulators of `CollectResult`'s receive loop. -/
structure CollectSt where
  durations : List ℚ
  execCount : ℕ
  sqlFailure : ℕ
  minAcc : EFloat
  maxAcc : EFloat
  sum : ℚ
deriving DecidableEq, Repr

/-- One iteration of `CollectResult`'s `for r := range result` loop. -/
def collectStep (st : CollectSt) (r : QueryResult) : CollectSt :=
  if r.Error.isSome then
    { st with sqlFailure := st.sqlFailure + 1 }
  else
    { st with
      execCount := st.execCount + 1
      durations := st.durations ++ [r.Duration]
      minAcc := goMin st.minAcc (.fin r.Duration)
      maxAcc := goMax st.maxAcc (.fin r.Duration)
      sum := st.sum + r.Duration }

/-- Initial accumulator state of `CollectResult`
(`min := math.Inf(1)`, `max := math.Inf(-1)`). -/
def collectInit : CollectSt :=
  { durations := [], execCount := 0, sqlFailure := 0
    minAcc := .posInf, maxAcc := .negInf, sum := 0 }

/-- `sort.Float64s`: ascending in-place sort, modelled extensionally. -/
def sortFloat64s (l : List ℚ) : List ℚ :=
  l.insertionSort (· ≤ ·)

/-- `CollectResult` from `collect_result.go` on a finite result stream:
drain the loop, sort the recorded durations, build the `Stats` value.
`none` models a panic inside one of the `percentile` calls. -/
def CollectResult (results : List QueryResult) : Option Stats :=
  let st := results.foldl collectStep collectInit
  let durations := sortFloat64s st.durations
  match percentile durations 50, percentile durations 95, percentile durations 99 with
  | some med, some p95, some p99 =>
      some { ExecCount := st.execCount
             FailedCount := st.sqlFailure
             Sum := st.sum
             Min := st.minAcc
             Max := st.maxAcc
             Mean := goDivNat st.sum st.execCount
             Median := med
             Percentile95th := p95
             Percentile99th := p99 }
  | _, _, _ => none

/-! ### Characterisation of the receive loop -/

/-- The `Duration` fields of the non-error results, in arrival order. -/
def successDurations (results : List QueryResult) : List ℚ :=
  (results.filter (fun r => r.Error.isNone)).map QueryResult.Duration

theorem foldl_collectStep_sqlFailure (results : List QueryResult) :
    ∀ st : CollectSt, (results.foldl collectStep st).sqlFailure =
      st.sqlFailure + (results.filter (fun r => r.Error.isSome)).length := by
  induction results with
  | nil => intro st; simp
  | cons r rs ih =>
      intro st
      cases hE : r.Error with
      | none => simp [collectStep, hE, List.filter_cons, ih]
      | some e => simp [collectStep, hE, List.filter_cons, ih]; omega

theorem foldl_collectStep_execCount (results : List QueryResult) :
    ∀ st : CollectSt, (results.foldl collectStep st).execCount =
      st.execCount + (successDurations results).length := by
  induction results with
  | nil => intro st; simp [successDurations]
  | cons r rs ih =>
      intro st
      cases hE : r.Error with
      | none => simp [collectStep, successDurations, hE, List.filter_cons, ih]; omega
      | some e => simp [collectStep, successDurations, hE, List.filter_cons, ih]

theorem foldl_collectStep_durations (results : List QueryResult) :
    ∀ st : CollectSt, (results.foldl collectStep st).durations =
      st.durations ++ successDurations results := by
  induction results with
  | nil => intro st; simp [successDurations]
  | cons r rs ih =>
      intro st
      cases hE : r.Error with
      | none => simp [collectStep, successDurations, hE, List.filter_cons, ih]
      | some e => simp [collectStep, successDurations, hE, List.filter_cons, ih]

theorem foldl_collectStep_sum (results : List QueryResult) :
    ∀ st : CollectSt, (results.foldl collectStep st).sum =
      st.sum + (successDurations results).sum := by
  induction results with
  | nil => intro st; simp [successDurations]
  | cons r rs ih =>
      intro st
      cases hE : r.Error with
      | none => simp [collectStep, successDurations, hE, List.filter_cons, ih]; ring
      | some e => simp [collectStep, successDurations, hE, List.filter_cons, ih]

theorem foldl_collectStep_minAcc (results : List QueryResult) :
    ∀ st : CollectSt, (results.foldl collectStep st).minAcc =
      (successDurations results).foldl (fun a d => goMin a (.fin d)) st.minAcc := by
  induction results with
  | nil => intro st; simp [successDurations]
  | cons r rs ih =>
      intro st
      cases hE : r.Error with
      | none => simp [collectStep, successDurations, hE, List.filter_cons, ih]
      | some e => simp [collectStep, successDurations, hE, List.filter_cons, ih]

theorem foldl_collectStep_maxAcc (results : List QueryResult) :
    ∀ st : CollectSt, (results.foldl collectStep st).maxAcc =
      (successDurations results).foldl (fun a d => goMax a (.fin d)) st.maxAcc := by
  induction results with
  | nil => intro st; simp [successDurations]
  | cons r rs ih =>
      intro st
      cases hE : r.Error with
      | none => simp [collectStep, successDurations, hE, List.filter_cons, ih]
      | some e => simp [collectStep, successDurations, hE, List.filter_cons, ih]

theorem length_filter_error_split (results : List QueryResult) :
    (results.filter (fun r => r.Error.isNone)).length +
      (results.filter (fun r => r.Error.isSome)).length = results.length := by
  induction results with
  | nil => simp
  | cons r t ih => cases hE : r.Error <;> simp [List.filter_cons, hE] <;> omega

/-- **C8**: an empty result stream yields exactly the degenerate Stats value:
zero counts, zero sum, `min = +Inf`, `max = -Inf`, and NaN for mean, median,
p95 and p99 — emitted as a value, not an error. -/
theorem claim_C8_empty_run_stats :
    CollectResult [] = some
      { ExecCount := 0, FailedCount := 0, Sum := 0, Min := .posInf, Max := .negInf,
        Mean := .nan, Median := .nan, Percentile95th := .nan, Percentile99th := .nan } := by
  norm_num [CollectResult, collectInit, sortFloat64s, percentile, goDivNat,
    minPercentile, maxPercentile, minPercentileDataLen]

/-- **C6**: whenever `CollectResult` produces a Stats value from a finite
result stream, `ExecCount + FailedCount` equals the number of results in the
stream: every result increments exactly one of the two counters. -/
theorem claim_C6_count_invariant (results : List QueryResult) (s : Stats)
    (h : CollectResult results = some s) :
    s.ExecCount + s.FailedCount = results.length := by
  unfold CollectResult at h
  dsimp only [] at h
  split at h
  · next med p95 p99 hm95 hm99 hm50 =>
      cases h
      simp only [foldl_collectStep_execCount, foldl_collectStep_sqlFailure]
      have := length_filter_error_split results
      simp only [successDurations, List.length_map, collectInit]
      omega
  · exact absurd h (by simp)

/-- Witness for C6 at the concrete stream of the repository's own test data:
three successes and two failures, five results in total. -/
theorem claim_C6_witness :
    ∃ s : Stats, CollectResult
      [⟨10, "test_host", none⟩, ⟨20, "test_host", none⟩, ⟨30, "test_host", none⟩,
       ⟨0, "test_host", some "test error"⟩, ⟨0, "test_host", some "test error"⟩] = some s ∧
      s.ExecCount + s.FailedCount = 5 := by
  have hc : CollectResult
      [⟨10, "test_host", none⟩, ⟨20, "test_host", none⟩, ⟨30, "test_host", none⟩,
       ⟨0, "test_host", some "test error"⟩, ⟨0, "test_host", some "test error"⟩] = some
      { ExecCount := 3, FailedCount := 2, Sum := 60, Min := .fin 10, Max := .fin 30,
        Mean := .fin 20, Median := .fin 20, Percentile95th := .fin 29,
        Percentile99th := .fin (149/5) } := by
    norm_num [CollectResult, collectInit, collectStep, sortFloat64s, percentile,
      goDivNat, goMin, goMax, goInt64, minPercentile, maxPercentile,
      minPercentileDataLen, List.insertionSort, List.orderedInsert]
  exact ⟨_, hc, claim_C6_count_invariant _ _ hc⟩

/-- **C2**: `percentile` implements exactly the specification's
linear-interpolation formula (same guards, same rank/floor/fraction, same
0-indexed accesses), and reproduces the specification's reference values
`percentile([10,20,30], 50) = 20`, `percentile([10,20,30], 95) = 29`,
`percentile([10,20,30], 99) = 29.8`. -/
theorem claim_C2_matches_spec_formula :
    (∀ (data : List ℚ) (p : ℚ), data.Sorted (· ≤ ·) → 2 ≤ data.length →
        0 ≤ p → p ≤ 100 → percentile data p = specPercentile data p) ∧
      percentile [10, 20, 30] 50 = some (.fin 20) ∧
      percentile [10, 20, 30] 95 = some (.fin 29) ∧
      percentile [10, 20, 30] 99 = some (.fin (149/5)) := by
  refine ⟨?_, ?_, ?_, ?_⟩
  · intro data p _hsorted h2 hp0 hp100
    have hq2 : (2:ℚ) ≤ (data.length : ℚ) := by exact_mod_cast h2
    have hrank0 : (0:ℚ) ≤ (p / 100) * ((data.length : ℚ) - 1) + 1 := by nlinarith
    have c1 : ¬ (p < minPercentile) := by rw [minPercentile]; linarith
    have c2 : ¬ (p > maxPercentile) := by rw [maxPercentile]; linarith
    have c3 : ¬ (((data.length : ℕ) : ℚ) < minPercentileDataLen) := by
      rw [minPercentileDataLen]; linarith
    have c4 : ¬ (p < 0 ∨ p > 100) := by push_neg; exact ⟨hp0, hp100⟩
    have c5 : ¬ (data.length < 2) := by omega
    unfold percentile specPercentile
    rw [if_neg c1, if_neg c2, if_neg c3, if_neg c4, if_neg c5]
    simp only [goInt64]
    rw [if_pos hrank0]
  · norm_num [percentile, goInt64, minPercentile, maxPercentile, minPercentileDataLen]
  · norm_num [percentile, goInt64, minPercentile, maxPercentile, minPercentileDataLen]
  · norm_num [percentile, goInt64, minPercentile, maxPercentile, minPercentileDataLen]

/-- Witness for C2: instantiating the universal part at the concrete sorted
array `[10,20,30]` and `p = 95`. -/
theorem claim_C2_witness :
    percentile [10, 20, 30] 95 = specPercentile [10, 20, 30] 95 :=
  claim_C2_matches_spec_formula.1 [10, 20, 30] 95
    (by norm_num [List.sorted_cons]) (by norm_num) (by norm_num) (by norm_num)

/-- **C1 (counterexample)**: on the ascending 2-element array `[10, 20]` and
the in-range request `p = 100`, `percentile` hits an out-of-bounds read of
`data[2]` (Go: index out of range panic), refuting the claim that every
`p ∈ [0, 100]` evaluates safely. -/
theorem claim_C1_counterexample : percentile [10, 20] 100 = none := by
  norm_num [percentile, goInt64, minPercentile, maxPercentile, minPercentileDataLen]

/-- **C1 (amended)**: for every ascending array with at least 2 elements and
every `p` with `0 ≤ p < 100`, `percentile` evaluates without any
out-of-bounds access and returns a finite float; at `p = 100` the read of
`data[i+1]` is out of bounds (see the counterexample). -/
theorem claim_C1_safe_below_100 (data : List ℚ) (p : ℚ)
    (_hsorted : data.Sorted (· ≤ ·)) (h2 : 2 ≤ data.length)
    (hp0 : 0 ≤ p) (hp100 : p < 100) :
    ∃ q : ℚ, percentile data p = some (.fin q) := by
  have hq2 : (2:ℚ) ≤ (data.length : ℚ) := by exact_mod_cast h2
  have hrank1 : (1:ℚ) ≤ (p / 100) * ((data.length : ℚ) - 1) + 1 := by nlinarith
  have hrankn : (p / 100) * ((data.length : ℚ) - 1) + 1 < (data.length : ℚ) := by nlinarith
  have hfl1 : 1 ≤ ⌊(p / 100) * ((data.length : ℚ) - 1) + 1⌋ :=
    Int.le_floor.mpr (by exact_mod_cast hrank1)
  have hfln : ⌊(p / 100) * ((data.length : ℚ) - 1) + 1⌋ < (data.length : ℤ) := by
    have h := lt_of_le_of_lt (Int.floor_le ((p / 100) * ((data.length : ℚ) - 1) + 1)) hrankn
    exact_mod_cast h
  have c1 : ¬ (p < minPercentile) := by rw [minPercentile]; linarith
  have c2 : ¬ (p > maxPercentile) := by rw [maxPercentile]; linarith
  have c3 : ¬ (((data.length : ℕ) : ℚ) < minPercentileDataLen) := by
    rw [minPercentileDataLen]; linarith
  have hg : goInt64 ((p / 100) * ((data.length : ℚ) - 1) + 1)
      = ⌊(p / 100) * ((data.length : ℚ) - 1) + 1⌋ := by
    simp only [goInt64]
    rw [if_pos (by linarith : (0:ℚ) ≤ (p / 100) * ((data.length : ℚ) - 1) + 1)]
  have c4 : ¬ (goInt64 ((p / 100) * ((data.length : ℚ) - 1) + 1) - 1 < 0) := by
    rw [hg]; omega
  have hk : (goInt64 ((p / 100) * ((data.length : ℚ) - 1) + 1) - 1).toNat < data.length := by
    rw [hg]; omega
  have hk1 : (goInt64 ((p / 100) * ((data.length : ℚ) - 1) + 1) - 1).toNat + 1
      < data.length := by
    rw [hg]; omega
  unfold percentile
  rw [if_neg c1, if_neg c2, if_neg c3, if_neg c4]
  rw [List.getElem?_eq_getElem hk, List.getElem?_eq_getElem hk1]
  exact ⟨_, rfl⟩

/-- Witness for the amended C1 at `[10, 20, 30]`, `p = 50`. -/
theorem claim_C1_witness : ∃ q : ℚ, percentile [10, 20, 30] 50 = some (.fin q) :=
  claim_C1_safe_below_100 [10, 20, 30] 50
    (by norm_num [List.sorted_cons]) (by norm_num) (by norm_num) (by norm_num)

theorem goMin_right_comm (z x y : EFloat) :
    goMin (goMin z x) y = goMin (goMin z y) x := by
  cases z <;> cases x <;> cases y <;> simp [goMin, inf_assoc, inf_left_comm, inf_comm]

theorem goMax_right_comm (z x y : EFloat) :
    goMax (goMax z x) y = goMax (goMax z y) x := by
  cases z <;> cases x <;> cases y <;> simp [goMax, sup_assoc, sup_left_comm, sup_comm]

/-- **C4**: `CollectResult` is order-independent — permuting the result
stream leaves every Stats field unchanged (counts and sum are commutative
accumulations, min/max are right-commutative folds, percentiles are taken
on the sorted sample buffer). -/
theorem claim_C4_order_independent (l1 l2 : List QueryResult) (h : l1.Perm l2) :
    CollectResult l1 = CollectResult l2 := by
  have hsd : (successDurations l1).Perm (successDurations l2) :=
    (h.filter _).map _
  have hsort : sortFloat64s ((l1.foldl collectStep collectInit).durations)
      = sortFloat64s ((l2.foldl collectStep collectInit).durations) := by
    rw [foldl_collectStep_durations, foldl_collectStep_durations]
    exact List.eq_of_perm_of_sorted
      ((List.perm_insertionSort _ _).trans (hsd.trans (List.perm_insertionSort _ _).symm))
      (List.sorted_insertionSort _ _) (List.sorted_insertionSort _ _)
  unfold CollectResult
  dsimp only []
  rw [hsort, foldl_collectStep_execCount, foldl_collectStep_execCount,
    foldl_collectStep_sqlFailure, foldl_collectStep_sqlFailure,
    foldl_collectStep_sum, foldl_collectStep_sum,
    foldl_collectStep_minAcc, foldl_collectStep_minAcc,
    foldl_collectStep_maxAcc, foldl_collectStep_maxAcc,
    hsd.length_eq, (h.filter _).length_eq, hsd.sum_eq,
    hsd.foldl_eq' (fun x _ y _ z => goMin_right_comm z (.fin x) (.fin y)),
    hsd.foldl_eq' (fun x _ y _ z => goMax_right_comm z (.fin x) (.fin y))]

/-- Witness for C4 at a concrete permutation of the repository's test
stream (failure results moved to the front). -/
theorem claim_C4_witness :
    CollectResult
      [⟨10, "test_host", none⟩, ⟨20, "test_host", none⟩, ⟨30, "test_host", none⟩,
       ⟨0, "test_host", some "test error"⟩, ⟨0, "test_host", some "test error"⟩] =
    CollectResult
      [⟨0, "test_host", some "test error"⟩, ⟨0, "test_host", some "test error"⟩,
       ⟨30, "test_host", none⟩, ⟨20, "test_host", none⟩, ⟨10, "test_host", none⟩] :=
  claim_C4_order_independent _ _ (by decide)

/-! ### Running min/max and percentile bounds (towards C7) -/

theorem foldl_goMin_fin (xs : List ℚ) :
    ∀ a : ℚ, xs.foldl (fun acc x => goMin acc (.fin x)) (.fin a)
      = .fin (xs.foldl min a) := by
  induction xs with
  | nil => intro a; simp
  | cons x t ih => intro a; simpa [goMin] using ih (min a x)

theorem foldl_goMax_fin (xs : List ℚ) :
    ∀ a : ℚ, xs.foldl (fun acc x => goMax acc (.fin x)) (.fin a)
      = .fin (xs.foldl max a) := by
  induction xs with
  | nil => intro a; simp
  | cons x t ih => intro a; simpa [goMax] using ih (max a x)

theorem foldl_min_le_init (xs : List ℚ) : ∀ a : ℚ, xs.foldl min a ≤ a := by
  induction xs with
  | nil => intro a; simp
  | cons x t ih => intro a; exact le_trans (ih (min a x)) (min_le_left a x)

theorem foldl_min_le_mem (xs : List ℚ) :
    ∀ (a y : ℚ), y ∈ xs → xs.foldl min a ≤ y := by
  induction xs with
  | nil => intro a y hy; simp at hy
  | cons x t ih =>
      intro a y hy
      rcases List.mem_cons.mp hy with rfl | hy
      · exact le_trans (foldl_min_le_init t (min a y)) (min_le_right a y)
      · exact ih (min a x) y hy

theorem foldl_min_mem (xs : List ℚ) :
    ∀ a : ℚ, xs.foldl min a = a ∨ xs.foldl min a ∈ xs := by
  induction xs with
  | nil => intro a; simp
  | cons x t ih =>
      intro a
      have hstep : (x :: t).foldl min a = t.foldl min (min a x) := rfl
      rcases min_choice a x with hc | hc
      · rw [hstep, hc]
        exact (ih a).imp id (List.mem_cons_of_mem x)
      · rw [hstep, hc]
        rcases ih x with h | h
        · right; rw [h]; exact List.mem_cons_self x t
        · right; exact List.mem_cons_of_mem x h

theorem foldl_max_init_le (xs : List ℚ) : ∀ a : ℚ, a ≤ xs.foldl max a := by
  induction xs with
  | nil => intro a; simp
  | cons x t ih => intro a; exact le_trans (le_max_left a x) (ih (max a x))

theorem foldl_max_mem_le (xs : List ℚ) :
    ∀ (a y : ℚ), y ∈ xs → y ≤ xs.foldl max a := by
  induction xs with
  | nil => intro a y hy; simp at hy
  | cons x t ih =>
      intro a y hy
      rcases List.mem_cons.mp hy with rfl | hy
      · exact le_trans (le_max_right a y) (foldl_max_init_le t (max a y))
      · exact ih (max a x) y hy

theorem foldl_max_mem (xs : List ℚ) :
    ∀ a : ℚ, xs.foldl max a = a ∨ xs.foldl max a ∈ xs := by
  induction xs with
  | nil => intro a; simp
  | cons x t ih =>
      intro a
      have hstep : (x :: t).foldl max a = t.foldl max (max a x) := rfl
      rcases max_choice a x with hc | hc
      · rw [hstep, hc]
        exact (ih a).imp id (List.mem_cons_of_mem x)
      · rw [hstep, hc]
        rcases ih x with h | h
        · right; rw [h]; exact List.mem_cons_self x t
        · right; exact List.mem_cons_of_mem x h

/-- The running minimum of `CollectResult` over a nonempty duration list is
a finite member of the list below every member. -/
theorem runningMin_spec (d : List ℚ) (hne : d ≠ []) :
    ∃ m : ℚ, d.foldl (fun acc x => goMin acc (.fin x)) .posInf = .fin m ∧
      m ∈ d ∧ ∀ y ∈ d, m ≤ y := by
  obtain ⟨x, xs, rfl⟩ := List.exists_cons_of_ne_nil hne
  refine ⟨xs.foldl min x, ?_, ?_, ?_⟩
  · simpa [goMin] using foldl_goMin_fin xs x
  · rcases foldl_min_mem xs x with h | h
    · simp [h]
    · exact List.mem_cons_of_mem x h
  · intro y hy
    rcases List.mem_cons.mp hy with rfl | hy
    · exact foldl_min_le_init xs y
    · exact foldl_min_le_mem xs x y hy

/-- The running maximum of `CollectResult` over a nonempty duration list is
a finite member of the list above every member. -/
theorem runningMax_spec (d : List ℚ) (hne : d ≠ []) :
    ∃ m : ℚ, d.foldl (fun acc x => goMax acc (.fin x)) .negInf = .fin m ∧
      m ∈ d ∧ ∀ y ∈ d, y ≤ m := by
  obtain ⟨x, xs, rfl⟩ := List.exists_cons_of_ne_nil hne
  refine ⟨xs.foldl max x, ?_, ?_, ?_⟩
  · simpa [goMax] using foldl_goMax_fin xs x
  · rcases foldl_max_mem xs x with h | h
    · simp [h]
    · exact List.mem_cons_of_mem x h
  · intro y hy
    rcases List.mem_cons.mp hy with rfl | hy
    · exact foldl_max_init_le xs y
    · exact foldl_max_mem_le xs x y hy

theorem sorted_get_le (s : List ℚ) (hs : s.Sorted (· ≤ ·)) (i j : ℕ)
    (hij : i ≤ j) (hj : j < s.length) :
    s.get ⟨i, lt_of_le_of_lt hij hj⟩ ≤ s.get ⟨j, hj⟩ := by
  rcases lt_or_eq_of_le hij with h | h
  · exact List.pairwise_iff_get.mp hs ⟨i, lt_of_le_of_lt hij hj⟩ ⟨j, hj⟩ h
  · subst h; exact le_rfl

/-- Exact evaluation of `percentile` on a sorted array for `0 ≤ p < 100`:
the result is a linear interpolation between two adjacent samples and lies
between them. -/
theorem percentile_eval (s : List ℚ) (hs : s.Sorted (· ≤ ·)) (p : ℚ)
    (h2 : 2 ≤ s.length) (hp0 : 0 ≤ p) (hp1 : p < 100) :
    ∃ (k : ℕ) (hk1 : k + 1 < s.length) (v : ℚ),
      k = (⌊(p / 100) * ((s.length : ℚ) - 1) + 1⌋ - 1).toNat ∧
      percentile s p = some (.fin v) ∧
      v = s.get ⟨k, by omega⟩ +
        ((p / 100) * ((s.length : ℚ) - 1) + 1 -
            (⌊(p / 100) * ((s.length : ℚ) - 1) + 1⌋ : ℤ)) *
          (s.get ⟨k + 1, hk1⟩ - s.get ⟨k, by omega⟩) ∧
      s.get ⟨k, by omega⟩ ≤ v ∧ v ≤ s.get ⟨k + 1, hk1⟩ := by
  have hq2 : (2:ℚ) ≤ (s.length : ℚ) := by exact_mod_cast h2
  have hrank1 : (1:ℚ) ≤ (p / 100) * ((s.length : ℚ) - 1) + 1 := by nlinarith
  have hrankn : (p / 100) * ((s.length : ℚ) - 1) + 1 < (s.length : ℚ) := by nlinarith
  have hfl1 : 1 ≤ ⌊(p / 100) * ((s.length : ℚ) - 1) + 1⌋ :=
    Int.le_floor.mpr (by exact_mod_cast hrank1)
  have hfln : ⌊(p / 100) * ((s.length : ℚ) - 1) + 1⌋ < (s.length : ℤ) := by
    have h := lt_of_le_of_lt (Int.floor_le ((p / 100) * ((s.length : ℚ) - 1) + 1)) hrankn
    exact_mod_cast h
  have c1 : ¬ (p < minPercentile) := by rw [minPercentile]; linarith
  have c2 : ¬ (p > maxPercentile) := by rw [maxPercentile]; linarith
  have c3 : ¬ (((s.length : ℕ) : ℚ) < minPercentileDataLen) := by
    rw [minPercentileDataLen]; linarith
  have hg : goInt64 ((p / 100) * ((s.length : ℚ) - 1) + 1)
      = ⌊(p / 100) * ((s.length : ℚ) - 1) + 1⌋ := by
    simp only [goInt64]
    rw [if_pos (by linarith : (0:ℚ) ≤ (p / 100) * ((s.length : ℚ) - 1) + 1)]
  have c4 : ¬ (⌊(p / 100) * ((s.length : ℚ) - 1) + 1⌋ - 1 < 0) := by omega
  have hk : (⌊(p / 100) * ((s.length : ℚ) - 1) + 1⌋ - 1).toNat < s.length := by omega
  have hk1 : (⌊(p / 100) * ((s.length : ℚ) - 1) + 1⌋ - 1).toNat + 1 < s.length := by omega
  have key : percentile s p = some (.fin
      (s.get ⟨(⌊(p / 100) * ((s.length : ℚ) - 1) + 1⌋ - 1).toNat, hk⟩ +
        ((p / 100) * ((s.length : ℚ) - 1) + 1 -
          (⌊(p / 100) * ((s.length : ℚ) - 1) + 1⌋ : ℤ)) *
        (s.get ⟨(⌊(p / 100) * ((s.length : ℚ) - 1) + 1⌋ - 1).toNat + 1, hk1⟩ -
          s.get ⟨(⌊(p / 100) * ((s.length : ℚ) - 1) + 1⌋ - 1).toNat, hk⟩))) := by
    unfold percentile
    dsimp only []
    rw [if_neg c1, if_neg c2, if_neg c3, hg, if_neg c4]
    rw [List.getElem?_eq_getElem hk, List.getElem?_eq_getElem hk1]
    rfl
  have hf0 : (0:ℚ) ≤ (p / 100) * ((s.length : ℚ) - 1) + 1 -
      (⌊(p / 100) * ((s.length : ℚ) - 1) + 1⌋ : ℤ) := by
    have := Int.floor_le ((p / 100) * ((s.length : ℚ) - 1) + 1)
    linarith
  have hf1 : (p / 100) * ((s.length : ℚ) - 1) + 1 -
      (⌊(p / 100) * ((s.length : ℚ) - 1) + 1⌋ : ℤ) < 1 := by
    have := Int.lt_floor_add_one ((p / 100) * ((s.length : ℚ) - 1) + 1)
    linarith
  have hab : s.get ⟨(⌊(p / 100) * ((s.length : ℚ) - 1) + 1⌋ - 1).toNat, by omega⟩ ≤
      s.get ⟨(⌊(p / 100) * ((s.length : ℚ) - 1) + 1⌋ - 1).toNat + 1, hk1⟩ :=
    sorted_get_le s hs _ _ (Nat.le_succ _) hk1
  refine ⟨(⌊(p / 100) * ((s.length : ℚ) - 1) + 1⌋ - 1).toNat, hk1, _, rfl, key, ?_, ?_, ?_⟩
  · simp [List.get_eq_getElem]
  · have := mul_nonneg hf0 (sub_nonneg.mpr hab)
    simp only [List.get_eq_getElem] at *
    linarith
  · have hba : (0:ℚ) ≤ s.get ⟨(⌊(p / 100) * ((s.length : ℚ) - 1) + 1⌋ - 1).toNat + 1, hk1⟩ -
        s.get ⟨(⌊(p / 100) * ((s.length : ℚ) - 1) + 1⌋ - 1).toNat, by omega⟩ :=
      sub_nonneg.mpr hab
    simp only [List.get_eq_getElem] at *
    nlinarith

/-- `percentile` is monotone in `p` on a sorted array (for `0 ≤ p ≤ p' < 100`). -/
theorem percentile_mono (s : List ℚ) (hs : s.Sorted (· ≤ ·)) (p p' : ℚ)
    (h2 : 2 ≤ s.length) (hp0 : 0 ≤ p) (hpp : p ≤ p') (hp1 : p' < 100)
    (v v' : ℚ) (hv : percentile s p = some (.fin v))
    (hv' : percentile s p' = some (.fin v')) : v ≤ v' := by
  obtain ⟨k, hk1, w, hkdef, hw, hwf, hwa, hwb⟩ :=
    percentile_eval s hs p h2 hp0 (lt_of_le_of_lt hpp hp1)
  obtain ⟨k', hk1', w', hkdef', hw', hwf', hwa', hwb'⟩ :=
    percentile_eval s hs p' h2 (le_trans hp0 hpp) hp1
  rw [hv] at hw
  rw [hv'] at hw'
  have hvw : v = w := by simpa using hw
  have hvw' : v' = w' := by simpa using hw'
  subst hvw hvw'
  have hq2 : (2:ℚ) ≤ (s.length : ℚ) := by exact_mod_cast h2
  have hrank1 : (1:ℚ) ≤ (p / 100) * ((s.length : ℚ) - 1) + 1 := by nlinarith
  have hrank1' : (1:ℚ) ≤ (p' / 100) * ((s.length : ℚ) - 1) + 1 := by nlinarith
  have hfl : 1 ≤ ⌊(p / 100) * ((s.length : ℚ) - 1) + 1⌋ :=
    Int.le_floor.mpr (by exact_mod_cast hrank1)
  have hfl' : 1 ≤ ⌊(p' / 100) * ((s.length : ℚ) - 1) + 1⌋ :=
    Int.le_floor.mpr (by exact_mod_cast hrank1')
  have hrr : (p / 100) * ((s.length : ℚ) - 1) + 1 ≤
      (p' / 100) * ((s.length : ℚ) - 1) + 1 := by nlinarith
  have hff : ⌊(p / 100) * ((s.length : ℚ) - 1) + 1⌋ ≤
      ⌊(p' / 100) * ((s.length : ℚ) - 1) + 1⌋ := Int.floor_le_floor hrr
  have hkk : k ≤ k' := by omega
  rcases eq_or_lt_of_le hkk with heq | hlt
  · subst heq
    have hfleq : ⌊(p / 100) * ((s.length : ℚ) - 1) + 1⌋ =
        ⌊(p' / 100) * ((s.length : ℚ) - 1) + 1⌋ := by omega
    rw [← hfleq] at hwf'
    have hab : s.get ⟨k, by omega⟩ ≤ s.get ⟨k + 1, hk1⟩ :=
      sorted_get_le s hs k (k + 1) (Nat.le_succ k) hk1
    have hexpand : v' - v = (((p' / 100) * ((s.length : ℚ) - 1) + 1) -
        ((p / 100) * ((s.length : ℚ) - 1) + 1)) *
        (s.get ⟨k + 1, hk1⟩ - s.get ⟨k, by omega⟩) := by
      rw [hwf, hwf']; ring
    nlinarith [mul_nonneg (sub_nonneg.mpr hrr) (sub_nonneg.mpr hab)]
  · have hmid : s.get ⟨k + 1, hk1⟩ ≤ s.get ⟨k', by omega⟩ :=
      sorted_get_le s hs (k + 1) k' (by omega) (by omega)
    exact le_trans hwb (le_trans hmid hwa')

/-- **C7**: whenever at least two successful results were aggregated, the
emitted Stats satisfy `Min ≤ Median ≤ Percentile95th ≤ Percentile99th ≤ Max`. -/
theorem claim_C7_stats_chain (results : List QueryResult) (s : Stats)
    (h : CollectResult results = some s) (h2 : 2 ≤ s.ExecCount) :
    efLe s.Min s.Median = true ∧ efLe s.Median s.Percentile95th = true ∧
      efLe s.Percentile95th s.Percentile99th = true ∧
      efLe s.Percentile99th s.Max = true := by
  unfold CollectResult at h
  dsimp only [] at h
  split at h
  · next med p95 p99 h50 h95 h99 =>
      cases h
      have hdur : (results.foldl collectStep collectInit).durations
          = successDurations results := by
        rw [foldl_collectStep_durations]; simp [collectInit]
      have hexec : (results.foldl collectStep collectInit).execCount
          = (successDurations results).length := by
        rw [foldl_collectStep_execCount]; simp [collectInit, successDurations]
      have hmin : (results.foldl collectStep collectInit).minAcc
          = (successDurations results).foldl (fun a d => goMin a (.fin d)) .posInf := by
        rw [foldl_collectStep_minAcc]; simp [collectInit]
      have hmax : (results.foldl collectStep collectInit).maxAcc
          = (successDurations results).foldl (fun a d => goMax a (.fin d)) .negInf := by
        rw [foldl_collectStep_maxAcc]; simp [collectInit]
      simp only [Stats.ExecCount] at h2
      rw [hexec] at h2
      rw [hdur] at h50 h95 h99
      have hperm : (sortFloat64s (successDurations results)).Perm
          (successDurations results) := List.perm_insertionSort _ _
      have hsorted : (sortFloat64s (successDurations results)).Sorted (· ≤ ·) :=
        List.sorted_insertionSort _ _
      have hlen : 2 ≤ (sortFloat64s (successDurations results)).length := by
        rw [hperm.length_eq]; exact h2
      have hne : successDurations results ≠ [] := by
        intro hcon; rw [hcon] at h2; simp at h2
      obtain ⟨m, hmfold, _hmmem, hmle⟩ := runningMin_spec _ hne
      obtain ⟨M, hMfold, _hMmem, hMle⟩ := runningMax_spec _ hne
      obtain ⟨k50, hk150, v50, _, he50, _, ha50, _⟩ :=
        percentile_eval _ hsorted 50 hlen (by norm_num) (by norm_num)
      obtain ⟨k95, hk195, v95, _, he95, _, _, _⟩ :=
        percentile_eval _ hsorted 95 hlen (by norm_num) (by norm_num)
      obtain ⟨k99, hk199, v99, _, he99, _, _, hb99⟩ :=
        percentile_eval _ hsorted 99 hlen (by norm_num) (by norm_num)
      have hmed : med = .fin v50 := by rw [h50] at he50; simpa using he50
      have hp95 : p95 = .fin v95 := by rw [h95] at he95; simpa using he95
      have hp99 : p99 = .fin v99 := by rw [h99] at he99; simpa using he99
      have hmono1 : v50 ≤ v95 :=
        percentile_mono _ hsorted 50 95 hlen (by norm_num) (by norm_num)
          (by norm_num) v50 v95 he50 he95
      have hmono2 : v95 ≤ v99 :=
        percentile_mono _ hsorted 95 99 hlen (by norm_num) (by norm_num)
          (by norm_num) v95 v99 he95 he99
      have hminmed : m ≤ v50 := by
        have hmem : (sortFloat64s (successDurations results)).get ⟨k50, by omega⟩
            ∈ successDurations results :=
          hperm.mem_iff.mp (List.get_mem _ _ _)
        exact le_trans (hmle _ hmem) ha50
      have hmaxp99 : v99 ≤ M := by
        have hmem : (sortFloat64s (successDurations results)).get ⟨k99 + 1, hk199⟩
            ∈ successDurations results :=
          hperm.mem_iff.mp (List.get_mem _ _ _)
        exact le_trans hb99 (hMle _ hmem)
      refine ⟨?_, ?_, ?_, ?_⟩ <;>
        simp only [Stats.Min, Stats.Max, Stats.Median, Stats.Percentile95th,
          Stats.Percentile99th, hmin, hmax, hmfold, hMfold, hmed, hp95, hp99, efLe,
          decide_eq_true_eq] <;>
        [exact hminmed; exact hmono1; exact hmono2; exact hmaxp99]
  · exact absurd h (by simp)

/-- Witness for C7 at the repository's own five-result test stream
(`ExecCount = 3 ≥ 2`). -/
theorem claim_C7_witness :
    ∃ s : Stats, CollectResult
      [⟨10, "test_host", none⟩, ⟨20, "test_host", none⟩, ⟨30, "test_host", none⟩,
       ⟨0, "test_host", some "test error"⟩, ⟨0, "test_host", some "test error"⟩] = some s ∧
      2 ≤ s.ExecCount ∧
      (efLe s.Min s.Median = true ∧ efLe s.Median s.Percentile95th = true ∧
        efLe s.Percentile95th s.Percentile99th = true ∧
        efLe s.Percentile99th s.Max = true) := by
  have hc : CollectResult
      [⟨10, "test_host", none⟩, ⟨20, "test_host", none⟩, ⟨30, "test_host", none⟩,
       ⟨0, "test_host", some "test error"⟩, ⟨0, "test_host", some "test error"⟩] = some
      { ExecCount := 3, FailedCount := 2, Sum := 60, Min := .fin 10, Max := .fin 30,
        Mean := .fin 20, Median := .fin 20, Percentile95th := .fin 29,
        Percentile99th := .fin (149/5) } := by
    norm_num [CollectResult, collectInit, collectStep, sortFloat64s, percentile,
      goDivNat, goMin, goMax, goInt64, minPercentile, maxPercentile,
      minPercentileDataLen, List.insertionSort, List.orderedInsert]
  exact ⟨_, hc, by norm_num, claim_C7_stats_chain _ _ hc (by norm_num)⟩

/-! ## Routing (`ProcessCsv` in the worker/process file) -/

/-- `QueryParams` from `entity.go`; timestamps are opaque integers. -/
structure QueryParams where
  Host : String
  Start : ℤ
  End : ℤ
deriving DecidableEq, Repr

/-- One callback invocation of `ParseCsv`: a parse error or a parsed record. -/
abbrev RecordEvent := Except String QueryParams

/-- The state of `ProcessCsv`'s closure: the host-to-worker map (a Go map,
modelled as an association list in insertion order), the round-robin
counter, the parse-failure counter, and the tasks sent so far as
(worker index, task) pairs in submission order. -/
structure RouteState where
  hostWorkerMap : List (String × ℕ)
  workerIndex : ℕ
  parseFailure : ℕ
  sent : List (ℕ × QueryParams)
deriving DecidableEq, Repr

/-- Go map lookup `hostWorkerMap[host]`. -/
def lookupHost (m : List (String × ℕ)) (h : String) : Option ℕ :=
  (m.find? (fun e => e.1 = h)).map (·.2)

/-- One iteration of the `ProcessCsv` callback, translated clause by clause.
`none` models a Go runtime panic: `workerIndex % len(workerChs)` divides by
zero when `N = 0`, and `workerChs[w]` panics when `w` is out of range. -/
def routeStep (N : ℕ) (st : RouteState) (ev : RecordEvent) : Option RouteState :=
  match ev with
  | .error _ => some { st with parseFailure := st.parseFailure + 1 }
  | .ok q =>
    match lookupHost st.hostWorkerMap q.Host with
    | some w =>
        if w < N then some { st with sent := st.sent ++ [(w, q)] } else none
    | none =>
        if N = 0 then none
        else
          let w := st.workerIndex
          let st' := { st with
            hostWorkerMap := st.hostWorkerMap ++ [(q.Host, w)]
            workerIndex := (st.workerIndex + 1) % N }
          if w < N then some { st' with sent := st'.sent ++ [(w, q)] } else none

/-- The initial closure state of `ProcessCsv`. -/
def routeInit : RouteState :=
  { hostWorkerMap := [], workerIndex := 0, parseFailure := 0, sent := [] }

/-- The record-routing loop of `ProcessCsv` over the sequence of callback
events produced by `ParseCsv`. -/
def processRecords (N : ℕ) (evs : List RecordEvent) : Option RouteState :=
  evs.foldlM (routeStep N) routeInit

/-! ### Round-robin sticky assignment (towards C5) -/

/-- First-appearance bookkeeping: append a host if it has not been seen. -/
def seenInsert (seen : List String) (h : String) : List String :=
  if h ∈ seen then seen else seen ++ [h]

/-- Hosts seen after a sequence of events, in first-appearance order. -/
def seenAfter (seen : List String) : List RecordEvent → List String
  | [] => seen
  | .error _ :: evs => seenAfter seen evs
  | .ok q :: evs => seenAfter (seenInsert seen q.Host) evs

/-- Number of malformed records in an event sequence. -/
def errCount : List RecordEvent → ℕ
  | [] => 0
  | .error _ :: evs => errCount evs + 1
  | .ok _ :: evs => errCount evs

/-- The assignment the claim describes: the k-th distinct host (k counted
from 1 in first-appearance order) goes to worker `(k-1) % N`, and every
record is tagged with its host's remembered index, in submission order. -/
def expectedSentAux (N : ℕ) (seen : List String) :
    List RecordEvent → List (ℕ × QueryParams)
  | [] => []
  | .error _ :: evs => expectedSentAux N seen evs
  | .ok q :: evs =>
      let seen' := seenInsert seen q.Host
      (seen'.indexOf q.Host % N, q) :: expectedSentAux N seen' evs

def expectedSent (N : ℕ) (evs : List RecordEvent) : List (ℕ × QueryParams) :=
  expectedSentAux N [] evs

/-- The router's map after seeing `seen` (hosts in first-appearance order,
numbered from `i`): host `seen[j]` is remembered as worker `(i+j) % N`. -/
def mapOfAux (N i : ℕ) : List String → List (String × ℕ)
  | [] => []
  | h :: t => (h, i % N) :: mapOfAux N (i + 1) t

theorem lookup_mapOfAux (N : ℕ) (seen : List String) :
    ∀ (i : ℕ) (h : String),
      lookupHost (mapOfAux N i seen) h =
        if h ∈ seen then some ((i + seen.indexOf h) % N) else none := by
  induction seen with
  | nil => intro i h; simp [lookupHost, mapOfAux]
  | cons s t ih =>
      intro i h
      by_cases hsh : s = h
      · subst hsh
        simp [lookupHost, mapOfAux, List.find?, List.indexOf_cons]
      · have hd : decide (s = h) = false := by simp [hsh]
        have hrec := ih (i + 1) h
        simp only [lookupHost] at hrec
        simp only [mapOfAux, lookupHost, List.find?, hd]
        rw [hrec]
        by_cases hm : h ∈ t
        · rw [if_pos hm, if_pos (List.mem_cons_of_mem s hm)]
          have hbeq2 : (s == h) = false := by simp [hsh]
          rw [List.indexOf_cons, hbeq2, cond_false]
          have harith : i + 1 + List.indexOf h t = i + (List.indexOf h t + 1) := by omega
          simp [harith]
        · rw [if_neg hm, if_neg (by simp [Ne.symm hsh, hm])]

theorem mapOfAux_append (N : ℕ) (a : List String) :
    ∀ (i : ℕ) (h : String),
      mapOfAux N i (a ++ [h]) = mapOfAux N i a ++ [(h, (i + a.length) % N)] := by
  induction a with
  | nil => intro i h; simp [mapOfAux]
  | cons s t ih =>
      intro i h
      have e1 : mapOfAux N i ((s :: t) ++ [h]) =
          (s, i % N) :: mapOfAux N (i + 1) (t ++ [h]) := rfl
      have e2 : mapOfAux N i (s :: t) = (s, i % N) :: mapOfAux N (i + 1) t := rfl
      have e3 : i + 1 + t.length = i + (s :: t).length := by
        simp only [List.length_cons]; omega
      rw [e1, ih (i + 1) h, e3, e2]
      simp

theorem indexOf_append_self (h : String) (seen : List String) (hnm : h ∉ seen) :
    (seen ++ [h]).indexOf h = seen.length := by
  induction seen with
  | nil => simp [List.indexOf_cons]
  | cons s t ih =>
      have hsh : (s == h) = false := by
        simp only [List.mem_cons, not_or] at hnm
        simp [Ne.symm hnm.1]
      simp only [List.cons_append, List.indexOf_cons, hsh, cond_false, List.length_cons]
      rw [ih (by simp only [List.mem_cons, not_or] at hnm; exact hnm.2)]

theorem indexOf_mem_lt (h : String) (seen : List String) (hm : h ∈ seen) :
    seen.indexOf h < seen.length := List.indexOf_lt_length.mpr hm

/-- Full characterisation of the `ProcessCsv` routing loop for `N ≥ 1`
workers: starting from a state whose map lists `seen` hosts in
first-appearance order, the loop never panics, counts the malformed
records, and sends exactly the claim's round-robin sticky assignment. -/
theorem processRecords_run (N : ℕ) (hN : 1 ≤ N) (evs : List RecordEvent) :
    ∀ (seen : List String) (pf : ℕ) (snt : List (ℕ × QueryParams)),
      List.foldlM (routeStep N)
        (RouteState.mk (mapOfAux N 0 seen) (seen.length % N) pf snt) evs =
      some (RouteState.mk (mapOfAux N 0 (seenAfter seen evs))
        ((seenAfter seen evs).length % N)
        (pf + errCount evs) (snt ++ expectedSentAux N seen evs)) := by
  induction evs with
  | nil => intro seen pf snt; simp [seenAfter, errCount, expectedSentAux]
  | cons ev evs ih =>
      intro seen pf snt
      cases ev with
      | error e =>
          rw [List.foldlM_cons]
          have hstep : routeStep N
              (RouteState.mk (mapOfAux N 0 seen) (seen.length % N) pf snt) (.error e) =
              some (RouteState.mk (mapOfAux N 0 seen) (seen.length % N) (pf + 1) snt) := rfl
          rw [hstep]
          simp only [Option.bind_eq_bind, Option.some_bind]
          rw [ih seen (pf + 1) snt]
          simp only [seenAfter, errCount, expectedSentAux]
          have : pf + 1 + errCount evs = pf + (errCount evs + 1) := by omega
          rw [this]
      | ok q =>
          rw [List.foldlM_cons]
          by_cases hm : q.Host ∈ seen
          · have hlook : lookupHost (mapOfAux N 0 seen) q.Host =
                some (seen.indexOf q.Host % N) := by
              rw [lookup_mapOfAux, if_pos hm]; simp
            have hw : seen.indexOf q.Host % N < N := Nat.mod_lt _ (by omega)
            have hstep : routeStep N
                (RouteState.mk (mapOfAux N 0 seen) (seen.length % N) pf snt) (.ok q) =
                some (RouteState.mk (mapOfAux N 0 seen) (seen.length % N) pf
                  (snt ++ [(seen.indexOf q.Host % N, q)])) := by
              simp only [routeStep, hlook, if_pos hw]
            rw [hstep]
            simp only [Option.bind_eq_bind, Option.some_bind]
            rw [ih seen pf (snt ++ [(seen.indexOf q.Host % N, q)])]
            simp only [seenAfter, expectedSentAux, errCount, seenInsert, if_pos hm,
              List.append_assoc, List.singleton_append]
          · have hlook : lookupHost (mapOfAux N 0 seen) q.Host = none := by
              rw [lookup_mapOfAux, if_neg hm]
            have hw : seen.length % N < N := Nat.mod_lt _ (by omega)
            have hstep : routeStep N
                (RouteState.mk (mapOfAux N 0 seen) (seen.length % N) pf snt) (.ok q) =
                some (RouteState.mk (mapOfAux N 0 seen ++ [(q.Host, seen.length % N)])
                  ((seen.length % N + 1) % N) pf
                  (snt ++ [(seen.length % N, q)])) := by
              simp only [routeStep, hlook, if_neg (by omega : ¬ N = 0), if_pos hw]
            rw [hstep]
            simp only [Option.bind_eq_bind, Option.some_bind]
            have hmap : mapOfAux N 0 seen ++ [(q.Host, seen.length % N)] =
                mapOfAux N 0 (seen ++ [q.Host]) := by
              rw [mapOfAux_append]; simp
            have hidx : (seen.length % N + 1) % N = (seen ++ [q.Host]).length % N := by
              rw [List.length_append]
              simp [Nat.mod_add_mod]
            rw [hmap, hidx, ih (seen ++ [q.Host]) pf (snt ++ [(seen.length % N, q)])]
            simp only [seenAfter, expectedSentAux, errCount, seenInsert, if_neg hm,
              List.append_assoc, List.singleton_append]
            rw [indexOf_append_self q.Host seen hm]

/-- **C5**: with `N ≥ 1` workers the routing loop never fails, and the tasks
are sent exactly as the sticky round-robin contract describes: the k-th
distinct host (in first-appearance order) is assigned worker `(k-1) % N`,
and every later record with the same host goes to the same remembered
index, in submission order. -/
theorem claim_C5_sticky_round_robin (N : ℕ) (hN : 1 ≤ N) (evs : List RecordEvent) :
    ∃ st : RouteState, processRecords N evs = some st ∧
      st.sent = expectedSent N evs := by
  have h := processRecords_run N hN evs [] 0 []
  refine ⟨RouteState.mk (mapOfAux N 0 (seenAfter [] evs))
      ((seenAfter [] evs).length % N) (0 + errCount evs)
      ([] ++ expectedSentAux N [] evs), ?_, ?_⟩
  · show List.foldlM (routeStep N) routeInit evs = _
    have e : routeInit = RouteState.mk (mapOfAux N 0 [])
        (([] : List String).length % N) 0 [] := rfl
    rw [e]
    exact h
  · simp [expectedSent]

/-- Witness for C5: three workers, five well-formed records over hosts
a, b, a, c, b plus one malformed record. -/
theorem claim_C5_witness :
    ∃ st : RouteState, processRecords 3
      [Except.ok (QueryParams.mk "a" 0 1), Except.ok (QueryParams.mk "b" 0 1),
       Except.error "bad record", Except.ok (QueryParams.mk "a" 2 3),
       Except.ok (QueryParams.mk "c" 0 1), Except.ok (QueryParams.mk "b" 2 3)] = some st ∧
      st.sent = expectedSent 3
      [Except.ok (QueryParams.mk "a" 0 1), Except.ok (QueryParams.mk "b" 0 1),
       Except.error "bad record", Except.ok (QueryParams.mk "a" 2 3),
       Except.ok (QueryParams.mk "c" 0 1), Except.ok (QueryParams.mk "b" 2 3)] :=
  claim_C5_sticky_round_robin 3 (by norm_num) _

/-- **C3**: with zero workers, `StartWorkers` cannot report an error (its
Go signature has no error result) and the routing loop of `ProcessCsv`
panics — `workerIndex % len(workerChs)` divides by zero — exactly when the
first well-formed record is assigned, contradicting the claim that the
misconfiguration is surfaced at setup time: the very first well-formed
record makes the loop crash (`none`). -/
theorem claim_C3_zero_workers_panics :
    processRecords 0 [Except.ok (QueryParams.mk "host_000001" 0 1)] = none := rfl

/-! ## CSV parsing (`parse.go`) -/

def expectedHeaderStr : String := "hostname,start_time,end_time"

/-- `validateHeader` from `parse.go`: joins the first record's fields with
commas and compares the result with the expected header string; returns the
error (`some`) or nil (`none`). -/
def validateHeader (line : List String) : Option String :=
  if String.intercalate "," line = expectedHeaderStr then none
  else some "invalid header"

/-- `parseLine` from `parse.go`.  `parseTime` abstracts the external
`time.Parse` with layout `2006-01-02 15:04:05` (timestamps are opaque
integers); the source reuses the start-time error message for the end time,
which only affects message text. -/
def parseLine (parseTime : String → Except String ℤ) (line : List String) :
    Except String QueryParams :=
  match line with
  | [hostname, startStr, endStr] =>
      if hostname = "" then .error "empty host name"
      else
        match parseTime startStr with
        | .error e => .error ("invalid start time value: " ++ e)
        | .ok st =>
          match parseTime endStr with
          | .error e => .error ("invalid start time value: " ++ e)
          | .ok en => .ok (QueryParams.mk hostname st en)
  | _ => .error "invalid line length, must be equal to 3"

/-- `ParseCsv` from `parse.go` over the sequence of results of
`csvReader.Read()` (a read error or a field list; `io.EOF` is the end of
the list).  The header is read and validated first — any failure aborts
with an error before a single callback runs; afterwards every row produces
exactly one callback event (read error, parse error, or parsed record). -/
def ParseCsv (parseTime : String → Except String ℤ)
    (rows : List (Except String (List String))) :
    Except String (List RecordEvent) :=
  match rows with
  | [] => .error "could not read header"
  | first :: rest =>
    match first with
    | .error e => .error ("could not read header: " ++ e)
    | .ok line =>
      match validateHeader line with
      | some e => .error e
      | none => .ok (rest.map fun row =>
          match row with
          | .error e => .error e
          | .ok record => parseLine parseTime record)

/-- Observable outcome of `ProcessCsv`: the parse-failure count and error
it returns, and the tasks it sent.  `none` models a panic in the routing
loop. -/
structure ProcessOut where
  parseFailure : ℕ
  err : Option String
  sent : List (ℕ × QueryParams)
deriving DecidableEq, Repr

/-- `ProcessCsv`: parse the rows, routing each callback event.  When
`ParseCsv` fails this can only be a header failure, which happens before
any callback, so the parse-failure counter is still 0 and nothing was
sent. -/
def ProcessCsv (parseTime : String → Except String ℤ) (N : ℕ)
    (rows : List (Except String (List String))) : Option ProcessOut :=
  match ParseCsv parseTime rows with
  | .error e => some (ProcessOut.mk 0 (some e) [])
  | .ok evs => (processRecords N evs).map
      fun st => ProcessOut.mk st.parseFailure none st.sent

/-- **C10 (counterexample)**: `validateHeader` compares the comma-join of
the fields, so the 2-field first record `["hostname,start_time", "end_time"]`
— not exactly the 3-field header — passes validation and `ParseCsv`
succeeds, refuting "not exactly the header implies an error". -/
theorem claim_C10_counterexample :
    ParseCsv (fun _ => Except.error "unparseable")
        [Except.ok ["hostname,start_time", "end_time"]] =
      Except.ok ([] : List RecordEvent) ∧
    ["hostname,start_time", "end_time"] ≠ ["hostname", "start_time", "end_time"] := by
  constructor
  · rfl
  · simp

/-- **C10 (amended)**: if the first row cannot be read, or the comma-join
of its fields differs from `"hostname,start_time,end_time"`, then `ParseCsv`
returns an error immediately, no callback event is produced, and
`ProcessCsv` reports that error with a parse-failure count of 0 and no task
routed to any worker. -/
theorem claim_C10_bad_header_aborts (parseTime : String → Except String ℤ) (N : ℕ)
    (first : Except String (List String)) (rest : List (Except String (List String)))
    (hbad : ∀ line, first = Except.ok line →
      String.intercalate "," line ≠ expectedHeaderStr) :
    ∃ msg, ParseCsv parseTime (first :: rest) = Except.error msg ∧
      ProcessCsv parseTime N (first :: rest) = some (ProcessOut.mk 0 (some msg) []) := by
  cases first with
  | error e =>
      refine ⟨"could not read header: " ++ e, rfl, ?_⟩
      unfold ProcessCsv
      rfl
  | ok line =>
      have hv : validateHeader line = some "invalid header" := by
        unfold validateHeader
        rw [if_neg (hbad line rfl)]
      refine ⟨"invalid header", ?_, ?_⟩
      · unfold ParseCsv
        dsimp only []
        rw [hv]
      · unfold ProcessCsv ParseCsv
        dsimp only []
        rw [hv]

/-- Witness for the amended C10: a 2-field header row that joins to
`"hostname,start_time"`. -/
theorem claim_C10_witness :
    ∃ msg, ParseCsv (fun _ => Except.error "unparseable")
        [Except.ok ["hostname", "start_time"], Except.ok ["h1", "a", "b"]] =
      Except.error msg ∧
      ProcessCsv (fun _ => Except.error "unparseable") 1
        [Except.ok ["hostname", "start_time"], Except.ok ["h1", "a", "b"]] =
      some (ProcessOut.mk 0 (some msg) []) :=
  claim_C10_bad_header_aborts _ 1 _ _
    (by intro line hline; cases hline; decide)

/-! ## Worker pool lifecycle (`StartWorkers`)

`StartWorkers` spawns `workerCount` goroutines, each draining its own input
channel and publishing one `QueryResult` per received task on the shared
`result` channel, plus one closer goroutine running `workerWg.Wait();
close(result)`.  The interleavings of this system are modelled as a
transition relation; wall-clock timing and the injected `work` function's
effect are abstracted (they do not influence the lifecycle). -/

/-- One worker unit and its input channel. -/
structure WorkerSt where
  queue : List QueryParams
  closed : Bool
  inFlight : Option QueryParams
  received : ℕ
  published : ℕ
  done : Bool
deriving DecidableEq, Repr

def WorkerSt.start : WorkerSt :=
  { queue := [], closed := false, inFlight := none,
    received := 0, published := 0, done := true }

/-- Pool state: the worker units, the `workerWg` counter, and the shared
result channel (its published values and closed flag). -/
structure PoolSt where
  workers : ℕ → WorkerSt
  wg : ℕ
  results : List QueryParams
  resClosed : Bool

/-- The state right after `StartWorkers N work` returns: `N` idle workers,
`workerWg` holding `N`, the result channel open and empty. -/
def poolInit (N : ℕ) : PoolSt :=
  { workers := fun _ => { WorkerSt.start with done := false },
    wg := N, results := [], resClosed := false }

/-- Worker-local transitions of the goroutine body. -/
def WorkerSt.enqueue (w : WorkerSt) (q : QueryParams) : WorkerSt :=
  { w with queue := w.queue ++ [q] }

def WorkerSt.closeCh (w : WorkerSt) : WorkerSt :=
  { w with closed := true }

def WorkerSt.takeTask (w : WorkerSt) (rest : List QueryParams) (q : QueryParams) :
    WorkerSt :=
  { w with queue := rest, inFlight := some q, received := w.received + 1 }

def WorkerSt.publishTask (w : WorkerSt) : WorkerSt :=
  { w with inFlight := none, published := w.published + 1 }

def WorkerSt.exitLoop (w : WorkerSt) : WorkerSt :=
  { w with done := true }

def PoolSt.setWorker (s : PoolSt) (i : ℕ) (w : WorkerSt) : PoolSt :=
  { s with workers := Function.update s.workers i w }

def PoolSt.pushResult (s : PoolSt) (q : QueryParams) : PoolSt :=
  { s with results := s.results ++ [q] }

def PoolSt.decWg (s : PoolSt) : PoolSt :=
  { s with wg := s.wg - 1 }

def PoolSt.closeRes (s : PoolSt) : PoolSt :=
  { s with resClosed := true }

/-- One interleaving step of the pool.  `send`/`closeQueue` are the
dispatcher's actions on an input channel; `take` and `publish` are the
worker-goroutine body (`for q := range ch` takes a task, times `work q` and
sends a `QueryResult` on `result`); `exit` is the loop ending — running the
deferred `workerWg.Done()` — once the channel is closed and drained;
`closeResult` is the closer goroutine, enabled only once `workerWg.Wait()`
returns. -/
inductive PoolStep (N : ℕ) : PoolSt → PoolSt → Prop
  | send (s : PoolSt) (i : ℕ) (q : QueryParams) (hi : i < N)
      (hc : (s.workers i).closed = false) :
      PoolStep N s (s.setWorker i ((s.workers i).enqueue q))
  | closeQueue (s : PoolSt) (i : ℕ) (hi : i < N)
      (hc : (s.workers i).closed = false) :
      PoolStep N s (s.setWorker i ((s.workers i).closeCh))
  | take (s : PoolSt) (i : ℕ) (q : QueryParams) (rest : List QueryParams) (hi : i < N)
      (hq : (s.workers i).queue = q :: rest)
      (hf : (s.workers i).inFlight = none)
      (hd : (s.workers i).done = false) :
      PoolStep N s (s.setWorker i ((s.workers i).takeTask rest q))
  | publish (s : PoolSt) (i : ℕ) (q : QueryParams) (hi : i < N)
      (hf : (s.workers i).inFlight = some q) :
      PoolStep N s ((s.setWorker i ((s.workers i).publishTask)).pushResult q)
  | exit (s : PoolSt) (i : ℕ) (hi : i < N)
      (hc : (s.workers i).closed = true)
      (hq : (s.workers i).queue = [])
      (hf : (s.workers i).inFlight = none)
      (hd : (s.workers i).done = false) :
      PoolStep N s ((s.setWorker i ((s.workers i).exitLoop)).decWg)
  | closeResult (s : PoolSt) (hw : s.wg = 0) (hc : s.resClosed = false) :
      PoolStep N s (s.closeRes)

/-- States the pool can be in, starting from `poolInit N`. -/
def PoolReachable (N : ℕ) (s : PoolSt) : Prop :=
  Relation.ReflTransGen (PoolStep N) (poolInit N) s

/-- Worker indices whose goroutine has not yet exited. -/
def undone (N : ℕ) (s : PoolSt) : Finset ℕ :=
  (Finset.range N).filter (fun i => (s.workers i).done = false)

/-- Inductive invariant of the pool: the WaitGroup counts the live workers,
the result channel closes only at count zero, an exited worker has drained
its closed queue, and `received` tracks `published` up to the in-flight
task. -/
structure PoolInv (N : ℕ) (s : PoolSt) : Prop where
  wg_eq : s.wg = (undone N s).card
  closed_wg : s.resClosed = true → s.wg = 0
  done_worker : ∀ i < N, (s.workers i).done = true →
    (s.workers i).closed = true ∧ (s.workers i).queue = [] ∧
      (s.workers i).inFlight = none
  recv_pub : ∀ i < N, (s.workers i).received =
    (s.workers i).published + ((s.workers i).inFlight.elim 0 fun _ => 1)

theorem setWorker_workers (s : PoolSt) (i : ℕ) (w : WorkerSt) (j : ℕ) :
    (s.setWorker i w).workers j = if j = i then w else s.workers j := by
  by_cases hji : j = i
  · subst hji; simp [PoolSt.setWorker]
  · simp [PoolSt.setWorker, Function.update_noteq hji, hji]

theorem undone_setWorker_of_done_eq (N : ℕ) (s : PoolSt) (i : ℕ) (w : WorkerSt)
    (hdone : w.done = (s.workers i).done) :
    undone N (s.setWorker i w) = undone N s := by
  unfold undone
  apply Finset.filter_congr
  intro j _
  rw [setWorker_workers]
  by_cases hji : j = i
  · subst hji; simp [hdone]
  · simp [hji]

theorem undone_setWorker_exit (N : ℕ) (s : PoolSt) (i : ℕ)
    (hd : (s.workers i).done = false) :
    undone N (s.setWorker i ((s.workers i).exitLoop)) = (undone N s).erase i := by
  unfold undone
  ext j
  rw [Finset.mem_erase, Finset.mem_filter, Finset.mem_filter, setWorker_workers]
  by_cases hji : j = i
  · subst hji; simp [WorkerSt.exitLoop]
  · simp [hji]

theorem mem_undone (N : ℕ) (s : PoolSt) (i : ℕ) (hi : i < N)
    (hd : (s.workers i).done = false) : i ∈ undone N s :=
  Finset.mem_filter.mpr ⟨Finset.mem_range.mpr hi, by simp [hd]⟩

/-- The pool invariant holds initially. -/
theorem poolInv_init (N : ℕ) : PoolInv N (poolInit N) := by
  refine ⟨?_, ?_, ?_, ?_⟩
  · simp [poolInit, undone, WorkerSt.start, Finset.filter_true_of_mem]
  · intro h; simp [poolInit] at h
  · intro i hi hd; simp [poolInit, WorkerSt.start] at hd
  · intro i hi; simp [poolInit, WorkerSt.start]

/-- The pool invariant is preserved by every step. -/
theorem poolInv_step (N : ℕ) (s s' : PoolSt) (hstep : PoolStep N s s')
    (ih : PoolInv N s) : PoolInv N s' := by
  cases hstep with
  | send i q hi hc =>
      refine ⟨?_, ?_, ?_, ?_⟩
      · rw [show (s.setWorker i ((s.workers i).enqueue q)).wg = s.wg from rfl,
          undone_setWorker_of_done_eq N s i ((s.workers i).enqueue q) rfl]
        exact ih.wg_eq
      · intro h; exact ih.closed_wg h
      · intro j hj hd
        rw [setWorker_workers] at *
        by_cases hji : j = i
        · subst hji
          rw [if_pos rfl] at hd ⊢
          simp only [WorkerSt.enqueue] at hd ⊢
          have h1 := (ih.done_worker j hj hd).1
          rw [hc] at h1
          cases h1
        · rw [if_neg hji] at hd ⊢
          exact ih.done_worker j hj hd
      · intro j hj
        rw [setWorker_workers]
        by_cases hji : j = i
        · subst hji
          rw [if_pos rfl]
          simpa [WorkerSt.enqueue] using ih.recv_pub j hj
        · rw [if_neg hji]
          exact ih.recv_pub j hj
  | closeQueue i hi hc =>
      refine ⟨?_, ?_, ?_, ?_⟩
      · rw [show (s.setWorker i ((s.workers i).closeCh)).wg = s.wg from rfl,
          undone_setWorker_of_done_eq N s i ((s.workers i).closeCh) rfl]
        exact ih.wg_eq
      · intro h; exact ih.closed_wg h
      · intro j hj hd
        rw [setWorker_workers] at *
        by_cases hji : j = i
        · subst hji
          rw [if_pos rfl] at hd ⊢
          simp only [WorkerSt.closeCh] at hd ⊢
          have h1 := ih.done_worker j hj hd
          exact ⟨trivial, h1.2.1, h1.2.2⟩
        · rw [if_neg hji] at hd ⊢
          exact ih.done_worker j hj hd
      · intro j hj
        rw [setWorker_workers]
        by_cases hji : j = i
        · subst hji
          rw [if_pos rfl]
          simpa [WorkerSt.closeCh] using ih.recv_pub j hj
        · rw [if_neg hji]
          exact ih.recv_pub j hj
  | take i q rest hi hq hf hd =>
      refine ⟨?_, ?_, ?_, ?_⟩
      · rw [show (s.setWorker i ((s.workers i).takeTask rest q)).wg = s.wg from rfl,
          undone_setWorker_of_done_eq N s i ((s.workers i).takeTask rest q) rfl]
        exact ih.wg_eq
      · intro h; exact ih.closed_wg h
      · intro j hj hdj
        rw [setWorker_workers] at *
        by_cases hji : j = i
        · subst hji
          rw [if_pos rfl] at hdj
          simp only [WorkerSt.takeTask] at hdj
          rw [hd] at hdj
          cases hdj
        · rw [if_neg hji] at hdj ⊢
          exact ih.done_worker j hj hdj
      · intro j hj
        rw [setWorker_workers]
        by_cases hji : j = i
        · subst hji
          rw [if_pos rfl]
          have h1 := ih.recv_pub j hj
          rw [hf] at h1
          simp only [WorkerSt.takeTask, Option.elim] at *
          omega
        · rw [if_neg hji]
          exact ih.recv_pub j hj
  | publish i q hi hf =>
      refine ⟨?_, ?_, ?_, ?_⟩
      · rw [show ((s.setWorker i ((s.workers i).publishTask)).pushResult q).wg
            = s.wg from rfl]
        rw [show undone N ((s.setWorker i ((s.workers i).publishTask)).pushResult q)
            = undone N (s.setWorker i ((s.workers i).publishTask)) from rfl,
          undone_setWorker_of_done_eq N s i ((s.workers i).publishTask) rfl]
        exact ih.wg_eq
      · intro h; exact ih.closed_wg h
      · intro j hj hdj
        have hw : ((s.setWorker i ((s.workers i).publishTask)).pushResult q).workers j
            = if j = i then (s.workers i).publishTask else s.workers j :=
          setWorker_workers s i _ j
        rw [hw] at hdj ⊢
        by_cases hji : j = i
        · subst hji
          rw [if_pos rfl] at hdj ⊢
          simp only [WorkerSt.publishTask] at hdj ⊢
          have h1 := ih.done_worker j hj hdj
          exact ⟨h1.1, h1.2.1, trivial⟩
        · rw [if_neg hji] at hdj ⊢
          exact ih.done_worker j hj hdj
      · intro j hj
        have hw : ((s.setWorker i ((s.workers i).publishTask)).pushResult q).workers j
            = if j = i then (s.workers i).publishTask else s.workers j :=
          setWorker_workers s i _ j
        rw [hw]
        by_cases hji : j = i
        · subst hji
          rw [if_pos rfl]
          have h1 := ih.recv_pub j hj
          rw [hf] at h1
          simp only [WorkerSt.publishTask, Option.elim] at *
          omega
        · rw [if_neg hji]
          exact ih.recv_pub j hj
  | exit i hi hc hq hf hd =>
      refine ⟨?_, ?_, ?_, ?_⟩
      · rw [show ((s.setWorker i ((s.workers i).exitLoop)).decWg).wg = s.wg - 1 from rfl]
        rw [show undone N ((s.setWorker i ((s.workers i).exitLoop)).decWg)
            = undone N (s.setWorker i ((s.workers i).exitLoop)) from rfl,
          undone_setWorker_exit N s i hd,
          Finset.card_erase_of_mem (mem_undone N s i hi hd), ih.wg_eq]
      · intro h
        have h0 : s.wg = 0 := ih.closed_wg h
        have hpos : 0 < (undone N s).card :=
          Finset.card_pos.mpr ⟨i, mem_undone N s i hi hd⟩
        rw [ih.wg_eq] at h0
        omega
      · intro j hj hdj
        have hw : ((s.setWorker i ((s.workers i).exitLoop)).decWg).workers j
            = if j = i then (s.workers i).exitLoop else s.workers j :=
          setWorker_workers s i _ j
        rw [hw] at hdj ⊢
        by_cases hji : j = i
        · subst hji
          rw [if_pos rfl]
          exact ⟨hc, hq, hf⟩
        · rw [if_neg hji] at hdj ⊢
          exact ih.done_worker j hj hdj
      · intro j hj
        have hw : ((s.setWorker i ((s.workers i).exitLoop)).decWg).workers j
            = if j = i then (s.workers i).exitLoop else s.workers j :=
          setWorker_workers s i _ j
        rw [hw]
        by_cases hji : j = i
        · subst hji
          rw [if_pos rfl]
          simpa [WorkerSt.exitLoop] using ih.recv_pub j hj
        · rw [if_neg hji]
          exact ih.recv_pub j hj
  | closeResult hw hc =>
      exact ⟨ih.wg_eq, fun _ => hw, ih.done_worker, ih.recv_pub⟩

/-- Every reachable pool state satisfies the invariant. -/
theorem poolInv_reachable (N : ℕ) (s : PoolSt) (h : PoolReachable N s) :
    PoolInv N s := by
  induction h with
  | refl => exact poolInv_init N
  | tail _hab hstep ih => exact poolInv_step N _ _ hstep ih

/-- **C9**: in every reachable pool state in which the shared result channel
is closed, all `N` worker units have terminated — each with its input queue
closed and drained, no task in flight, and exactly one published result per
received task — and no further step can add a result to the channel. -/
theorem claim_C9_close_barrier (N : ℕ) (s : PoolSt)
    (hreach : PoolReachable N s) (hclosed : s.resClosed = true) :
    (∀ i < N, (s.workers i).done = true ∧ (s.workers i).closed = true ∧
      (s.workers i).queue = [] ∧ (s.workers i).inFlight = none ∧
      (s.workers i).published = (s.workers i).received) ∧
    ∀ s', PoolStep N s s' → s'.results = s.results := by
  have inv := poolInv_reachable N s hreach
  have hwg0 : s.wg = 0 := inv.closed_wg hclosed
  have hcard : (undone N s).card = 0 := by rw [← inv.wg_eq]; exact hwg0
  have hall : ∀ i < N, (s.workers i).done = true := by
    intro i hi
    by_contra hcon
    have hmem : i ∈ undone N s :=
      mem_undone N s i hi (by simpa using hcon)
    have := Finset.card_pos.mpr ⟨i, hmem⟩
    omega
  constructor
  · intro i hi
    obtain ⟨hcl, hq, hf⟩ := inv.done_worker i hi (hall i hi)
    refine ⟨hall i hi, hcl, hq, hf, ?_⟩
    have hrp := inv.recv_pub i hi
    rw [hf] at hrp
    simpa using hrp.symm
  · intro s' hstep
    cases hstep with
    | send i q hi hc => rfl
    | closeQueue i hi hc => rfl
    | take i q rest hi hq hf hd => rfl
    | publish i q hi hf =>
        have hfn := (inv.done_worker i hi (hall i hi)).2.2
        rw [hfn] at hf
        cases hf
    | exit i hi hc hq hf hd => rfl
    | closeResult hw hc => rfl

/-- A concrete closed run with one worker: close its queue, let it exit,
then close the result channel. -/
def c9s1 : PoolSt := (poolInit 1).setWorker 0 (((poolInit 1).workers 0).closeCh)
def c9s2 : PoolSt := (c9s1.setWorker 0 ((c9s1.workers 0).exitLoop)).decWg
def c9s3 : PoolSt := c9s2.closeRes

theorem c9s3_reachable : PoolReachable 1 c9s3 := by
  have h1 : PoolStep 1 (poolInit 1) c9s1 :=
    PoolStep.closeQueue (poolInit 1) 0 (by norm_num) rfl
  have h2 : PoolStep 1 c9s1 c9s2 :=
    PoolStep.exit c9s1 0 (by norm_num) rfl rfl rfl rfl
  have h3 : PoolStep 1 c9s2 c9s3 :=
    PoolStep.closeResult c9s2 rfl rfl
  exact ((Relation.ReflTransGen.refl.tail h1).tail h2).tail h3

/-- Witness for C9: the barrier property instantiated on the concrete
closed run. -/
theorem claim_C9_witness :
    ∃ s : PoolSt, PoolReachable 1 s ∧ s.resClosed = true ∧
      ((∀ i < 1, (s.workers i).done = true ∧ (s.workers i).closed = true ∧
        (s.workers i).queue = [] ∧ (s.workers i).inFlight = none ∧
        (s.workers i).published = (s.workers i).received) ∧
      ∀ s', PoolStep 1 s s' → s'.results = s.results) :=
  ⟨c9s3, c9s3_reachable, rfl, claim_C9_close_barrier 1 c9s3 c9s3_reachable rfl⟩
